import Mathlib

/-!
Verification of the chunked attribute container and the I/O helpers of the
CGoGN_2 core, as shallowly embedded Lean definitions.  The embedding follows
`src/cgogn/core/container/chunk_array.h`, `src/cgogn/io/map_export.h` and
`src/cgogn/io/mesh_generation/tetgen_structure_io.h`.  Chunks of
`ChunkArray<CHUNKSIZE, T>` are lists of length `CHUNKSIZE`; the boolean
specialization stores each chunk as `CHUNKSIZE/32` unsigned 32-bit words,
modelled as natural numbers; byte streams are lists of naturals.
-/

set_option maxHeartbeats 1000000
set_option linter.unusedVariables false

namespace CGoGN

/-- A persisted column: the three-word header `{num_chunks, num_live_lines,
chunk_byte_size}` followed by the element payload (for `T` different from
`bool`, elements are written whole, so the payload is modelled as a list of
elements rather than of raw bytes). -/
structure SaveData (T : Type) where
  nbChunks : Nat
  nbLinesField : Nat
  chunkBytes : Nat
  payload : List T
deriving DecidableEq

/-- `ChunkArray<CHUNKSIZE, T>` from chunk_array.h lines 41-274: a vector of
chunk pointers, each chunk holding `CHUNKSIZE` elements of type `T`. -/
structure ChunkArray (T : Type) where
  tableData : List (List T)
deriving DecidableEq

namespace ChunkArray

variable {T : Type}

/-- A freshly constructed `ChunkArray` has no chunks. -/
def empty (T : Type) : ChunkArray T := ⟨[]⟩

/-- Well-formedness: every allocated chunk holds exactly `C` elements. -/
def wf (C : Nat) (a : ChunkArray T) : Prop :=
  ∀ ch ∈ a.tableData, ch.length = C

instance (C : Nat) (a : ChunkArray T) : Decidable (wf C a) :=
  inferInstanceAs (Decidable (∀ ch ∈ a.tableData, ch.length = C))

/-- `addChunk` (lines 80-83): `tableData_.emplace_back(new T[CHUNKSIZE]())`,
i.e. append one value-initialized chunk; `d` is the value `T()`. -/
def addChunk (C : Nat) (d : T) (a : ChunkArray T) : ChunkArray T :=
  ⟨a.tableData ++ [List.replicate C d]⟩

/-- The grow loop of `setNbChunks` (lines 94-95): call `addChunk` `n` times. -/
def addChunks (C : Nat) (d : T) : Nat → ChunkArray T → ChunkArray T
  | 0, a => a
  | n + 1, a => addChunks C d n (addChunk C d a)

/-- `setNbChunks` (lines 90-103): grow by repeated `addChunk` when
`nbc >= tableData_.size()`, otherwise delete the trailing chunks and resize
down to `nbc`. -/
def setNbChunks (C : Nat) (d : T) (nbc : Nat) (a : ChunkArray T) : ChunkArray T :=
  if a.tableData.length ≤ nbc then
    addChunks C d (nbc - a.tableData.length) a
  else
    ⟨a.tableData.take nbc⟩

/-- `getNbChunks` (lines 110-113). -/
def getNbChunks (a : ChunkArray T) : Nat :=
  a.tableData.length

/-- `capacity` (lines 119-122): `tableData_.size() * CHUNKSIZE`. -/
def capacity (C : Nat) (a : ChunkArray T) : Nat :=
  a.tableData.length * C

/-- `operator[]` (lines 140-153): `tableData_[i / CHUNKSIZE][i % CHUNKSIZE]`.
Out-of-range access is undefined in the C++ code; the model returns `d`. -/
def get (C : Nat) (d : T) (a : ChunkArray T) (i : Nat) : T :=
  (a.tableData.getD (i / C) []).getD (i % C) d

/-- `setVal` (lines 160-163): `tableData_[i / CHUNKSIZE][i % CHUNKSIZE] = v`. -/
def setVal (C : Nat) (a : ChunkArray T) (i : Nat) (v : T) : ChunkArray T :=
  ⟨a.tableData.set (i / C)
    ((a.tableData.getD (i / C) []).set (i % C) v)⟩

/-- `save` (lines 216-242): write the header `{size, nbLines,
CHUNKSIZE*sizeof(T)}`, then every chunk but the last in full, then the first
`nbLines - nbca*CHUNKSIZE` elements of the last chunk. -/
def save (C sizeofT : Nat) (a : ChunkArray T) (nbLines : Nat) : SaveData T :=
  { nbChunks := a.tableData.length
    nbLinesField := nbLines
    chunkBytes := C * sizeofT
    payload :=
      if a.tableData.length = 0 then []
      else
        (a.tableData.take (a.tableData.length - 1)).flatten ++
          (a.tableData.getD (a.tableData.length - 1) []).take
            (nbLines - (a.tableData.length - 1) * C) }

/-- `load` (lines 245-272): read the header; fail if the stored chunk byte
size differs from `CHUNKSIZE*sizeof(T)`; otherwise resize to the stored chunk
count and read back every chunk but the last in full, then
`nbs[1] - CHUNKSIZE*nbca` elements into the last chunk (whose remaining
elements keep the content produced by `setNbChunks`). -/
def load (C sizeofT : Nat) (d : T) (a : ChunkArray T) (s : SaveData T) :
    Bool × ChunkArray T :=
  if s.chunkBytes ≠ C * sizeofT then (false, a)
  else if s.nbChunks = 0 then (true, setNbChunks C d s.nbChunks a)
  else
    (true,
      ⟨(List.range s.nbChunks).map fun q =>
        if q < s.nbChunks - 1 then (s.payload.drop (q * C)).take C
        else (s.payload.drop ((s.nbChunks - 1) * C)).take
            (s.nbLinesField - C * (s.nbChunks - 1)) ++
          ((setNbChunks C d s.nbChunks a).tableData.getD q []).drop
            (s.nbLinesField - C * (s.nbChunks - 1))⟩)

end ChunkArray

/-- The boolean specialization `ChunkArray<CHUNKSIZE, bool>` (chunk_array.h
lines 283-517): one bit per value, each chunk backed by `CHUNKSIZE/32`
unsigned 32-bit words. -/
structure ChunkArrayBool where
  tableData : List (List Nat)
deriving DecidableEq

/-- A persisted boolean column: three-word header plus a byte payload. -/
structure BoolSaveData where
  nbChunks : Nat
  nbLinesField : Nat
  chunkBytes : Nat
  payload : List Nat
deriving DecidableEq

namespace ChunkArrayBool

/-- A freshly constructed boolean column has no chunks. -/
def empty : ChunkArrayBool := ⟨[]⟩

/-- Well-formedness: every chunk holds exactly `C/32` words. -/
def wf (C : Nat) (a : ChunkArrayBool) : Prop :=
  ∀ ch ∈ a.tableData, ch.length = C / 32

instance (C : Nat) (a : ChunkArrayBool) : Decidable (wf C a) :=
  inferInstanceAs (Decidable (∀ ch ∈ a.tableData, ch.length = C / 32))

/-- `addChunk` (lines 312-316): append one zero-initialized chunk of
`CHUNKSIZE/32` words. -/
def addChunk (C : Nat) (a : ChunkArrayBool) : ChunkArrayBool :=
  ⟨a.tableData ++ [List.replicate (C / 32) 0]⟩

/-- The grow loop of the boolean `setNbChunks` (lines 324-325). -/
def addChunks (C : Nat) : Nat → ChunkArrayBool → ChunkArrayBool
  | 0, a => a
  | n + 1, a => addChunks C n (addChunk C a)

/-- Boolean `setNbChunks` (lines 320-333). -/
def setNbChunks (C : Nat) (nbc : Nat) (a : ChunkArrayBool) : ChunkArrayBool :=
  if a.tableData.length ≤ nbc then
    addChunks C (nbc - a.tableData.length) a
  else
    ⟨a.tableData.take nbc⟩

/-- Boolean `getNbChunks` (lines 337-340). -/
def getNbChunks (a : ChunkArrayBool) : Nat :=
  a.tableData.length

/-- Boolean `capacity` (lines 343-346): the code returns
`tableData_.size() * CHUNKSIZE / 32u`. -/
def capacity (C : Nat) (a : ChunkArrayBool) : Nat :=
  a.tableData.length * C / 32

/-- `setFalse` (lines 356-364): clear bit `(i % CHUNKSIZE) % 32` of word
`(i % CHUNKSIZE) / 32` of chunk `i / CHUNKSIZE`.  The C++ `~mask` is the
complement within 32 bits, i.e. `(2^32 - 1) ^^^ mask`. -/
def setFalse (C : Nat) (a : ChunkArrayBool) (i : Nat) : ChunkArrayBool :=
  let jj := i / C
  let j := i % C
  let x := j / 32
  let y := j % 32
  let mask := 1 <<< y
  ⟨a.tableData.set jj
    ((a.tableData.getD jj []).set x
      (((a.tableData.getD jj []).getD x 0) &&& ((2 ^ 32 - 1) ^^^ mask)))⟩

/-- `setTrue` (lines 366-374): set bit `(i % CHUNKSIZE) % 32` of word
`(i % CHUNKSIZE) / 32` of chunk `i / CHUNKSIZE`. -/
def setTrue (C : Nat) (a : ChunkArrayBool) (i : Nat) : ChunkArrayBool :=
  let jj := i / C
  let j := i % C
  let x := j / 32
  let y := j % 32
  let mask := 1 <<< y
  ⟨a.tableData.set jj
    ((a.tableData.getD jj []).set x
      (((a.tableData.getD jj []).getD x 0) ||| mask))⟩

/-- `setVal` (lines 376-388): set or clear bit `i` depending on `b`. -/
def setVal (C : Nat) (a : ChunkArrayBool) (i : Nat) (b : Bool) : ChunkArrayBool :=
  let jj := i / C
  let j := i % C
  let x := j / 32
  let y := j % 32
  let mask := 1 <<< y
  if b then
    ⟨a.tableData.set jj
      ((a.tableData.getD jj []).set x
        (((a.tableData.getD jj []).getD x 0) ||| mask))⟩
  else
    ⟨a.tableData.set jj
      ((a.tableData.getD jj []).set x
        (((a.tableData.getD jj []).getD x 0) &&& ((2 ^ 32 - 1) ^^^ mask)))⟩

/-- `setFalseDirty` (lines 398-403): `tableData_[i / CHUNKSIZE]
[(i % CHUNKSIZE) / 32u] = 0u`, overwriting the whole enclosing word. -/
def setFalseDirty (C : Nat) (a : ChunkArrayBool) (i : Nat) : ChunkArrayBool :=
  let jj := i / C
  let j := (i % C) / 32
  ⟨a.tableData.set jj ((a.tableData.getD jj []).set j 0)⟩

/-- `operator[]` (lines 407-417): `(tableData_[jj][x] & mask) != 0u`. -/
def read (C : Nat) (a : ChunkArrayBool) (i : Nat) : Bool :=
  let jj := i / C
  let j := i % C
  let x := j / 32
  let y := j % 32
  let mask := 1 <<< y
  ((a.tableData.getD jj []).getD x 0) &&& mask != 0

/-- The first `n` bytes of the memory of a 32-bit word array, little-endian
(the byte order in which `fs.write(reinterpret_cast<const char*>(words), n)`
emits an `unsigned int[]` buffer on the library's x86 targets). -/
def wordBytes (ws : List Nat) (n : Nat) : List Nat :=
  (List.range n).map fun i => ((ws.getD (i / 4) 0) >>> (8 * (i % 4))) &&& 255

/-- Overwrite the first `nBytes` bytes of the 32-bit word `w` (word index `x`
of the destination buffer) with the corresponding stream bytes, as
`fs.read(reinterpret_cast<char*>(words), nBytes)` does. -/
def mergeWord (bs : List Nat) (nBytes x w : Nat) : Nat :=
  let byteAt := fun j =>
    if 4 * x + j < nBytes then bs.getD (4 * x + j) 0
    else (w >>> (8 * j)) &&& 255
  byteAt 0 + (byteAt 1) <<< 8 + (byteAt 2) <<< 16 + (byteAt 3) <<< 24

/-- Read `nBytes` stream bytes into a word buffer, keeping the bytes beyond
`nBytes` from the old buffer contents. -/
def readInto (bs : List Nat) (nBytes : Nat) (old : List Nat) : List Nat :=
  (List.range old.length).map fun x => mergeWord bs nBytes x (old.getD x 0)

/-- Boolean `save` (lines 455-485): round `nbLines` up to a multiple of 32,
write the header `{size, nbLines, CHUNKSIZE/8}`, then every chunk but the
last as `CHUNKSIZE/8` bytes, then `nbl/8` bytes of the last chunk where
`nbl = nbLines - nbca*CHUNKSIZE/8u` (the expression of line 483, which
divides the subtracted term by 8 as well). -/
def save (C : Nat) (a : ChunkArrayBool) (nbLines : Nat) : BoolSaveData :=
  let nbLines' := if nbLines % 32 ≠ 0 then (nbLines / 32 + 1) * 32 else nbLines
  let k := a.tableData.length
  { nbChunks := k
    nbLinesField := nbLines'
    chunkBytes := C / 8
    payload :=
      if k = 0 then []
      else
        ((a.tableData.take (k - 1)).map fun ch => wordBytes ch (C / 8)).flatten ++
          wordBytes (a.tableData.getD (k - 1) []) ((nbLines' - (k - 1) * C / 8) / 8) }

/-- Boolean `load` (lines 488-515): fail if the stored chunk byte size is not
`CHUNKSIZE/8`; otherwise resize and read every chunk but the last as
`CHUNKSIZE/8` bytes, then `nbl/8` bytes into the last chunk with
`nbl = nbs[1] - nbca*CHUNKSIZE/8u` (line 511). -/
def load (C : Nat) (a : ChunkArrayBool) (s : BoolSaveData) :
    Bool × ChunkArrayBool :=
  if s.chunkBytes ≠ C / 8 then (false, a)
  else
    let a1 := setNbChunks C s.nbChunks a
    if s.nbChunks = 0 then (true, a1)
    else
      let nbca := s.nbChunks - 1
      let nbl := s.nbLinesField - nbca * C / 8
      (true,
        ⟨(List.range s.nbChunks).map fun q =>
          if q < nbca then
            readInto ((s.payload.drop (q * (C / 8))).take (C / 8)) (C / 8)
              (a1.tableData.getD q [])
          else
            readInto ((s.payload.drop (nbca * (C / 8))).take (nbl / 8)) (nbl / 8)
              (a1.tableData.getD q [])⟩)

end ChunkArrayBool

/-- The two cell counts that `export_off_bin` queries from the map: the code
calls `map.nb_cells<Vertex::ORBIT>()` and `map.nb_cells<Face::ORBIT>()`. -/
structure MapCellCounts where
  nbVertexCells : Nat
  nbFaceCells : Nat
deriving DecidableEq

/-- The three-word count record of `export_off_bin` (map_export.h lines
139-144): `nb_cells[0]` and `nb_cells[1]` are both assigned
`swap_endianness_native_big(map.nb_cells<Vertex::ORBIT>())`, `nb_cells[2]`
is assigned `0`, and the three words are written in order. -/
def exportOffBinCounts (swapEndian : Nat → Nat) (m : MapCellCounts) : List Nat :=
  [swapEndian m.nbVertexCells, swapEndian m.nbVertexCells, 0]

/-- The fields of `tetgenio` that `import_file_impl` reads
(tetgen_structure_io.h lines 61-96). -/
structure TetgenOutput (S : Type) where
  numberofpoints : Nat
  numberoftetrahedra : Nat
  firstnumber : Int
  pointlist : List S
  tetrahedronlist : List Int
deriving DecidableEq

/-- The observable state of a `TetgenStructureVolumeImport`: the counts read
from the tetgen output, the inserted vertex attribute lines (one position
triple per `insert_lines<1>` call) and the recorded tetrahedra. -/
structure VolumeImportState (S : Type) where
  nbVertices : Nat
  nbVolumes : Nat
  positions : List (S × S × S)
  tetras : List (Nat × Nat × Nat × Nat)
deriving DecidableEq

namespace VolumeImport

/-- Modelled from the spec: `VolumeImport::clear` (declared in
volume_import.h, which is not part of the visible sources) discards all data
gathered by the importer, returning it to its freshly constructed state. -/
def clear (S : Type) : VolumeImportState S → VolumeImportState S :=
  fun _ => ⟨0, 0, [], []⟩

/-- Modelled from the spec: `ChunkArrayContainer::insert_lines<1>` returns
one fresh live slot; on a container that only ever grows, the slots are
handed out consecutively from zero, so the new id is the current number of
inserted lines.  `VolumeImport::add_tetra` records one tetrahedron from its
four vertex ids. -/
def addTetra (S : Type) (st : VolumeImportState S) (ids : Nat × Nat × Nat × Nat) :
    VolumeImportState S :=
  { st with tetras := st.tetras ++ [ids] }

/-- The vertex creation loop of `import_file_impl` (lines 75-85): iteration
`i` reads `p[0] p[1] p[2]` at offset `3*i` of `pointlist`, inserts one
attribute line, stores the position there and remembers the returned id. -/
def vertexLoop (S : Type) (dS : S) (pl : List S) :
    Nat → Nat → VolumeImportState S → List Nat → VolumeImportState S × List Nat
  | _, 0, st, ids => (st, ids)
  | i, n + 1, st, ids =>
    let id := st.positions.length
    let st1 := { st with
      positions := st.positions ++
        [(pl.getD (3 * i) dS, pl.getD (3 * i + 1) dS, pl.getD (3 * i + 2) dS)] }
    vertexLoop S dS pl (i + 1) n st1 (ids ++ [id])

/-- The tetrahedron creation loop of `import_file_impl` (lines 88-96):
iteration `i` reads the four vertex indices at offset `4*i` of
`tetrahedronlist`, shifts them by `firstnumber`, resolves them through the
remembered vertex ids and calls `add_tetra`. -/
def tetraLoop (S : Type) (vol : TetgenOutput S) (ids : List Nat) :
    Nat → Nat → VolumeImportState S → VolumeImportState S
  | _, 0, st => st
  | i, n + 1, st =>
    let idOf := fun j =>
      ids.getD (vol.tetrahedronlist.getD (4 * i + j) 0 - vol.firstnumber).toNat 0
    tetraLoop S vol ids (i + 1) n
      (addTetra S st (idOf 0, idOf 1, idOf 2, idOf 3))

/-- `TetgenStructureVolumeImport::import_file_impl` (lines 58-99): read the
point and tetrahedron counts; if either is zero, clear the importer and
return false; otherwise create the vertices, then the tetrahedra, and return
true. -/
def importFileImpl (S : Type) (dS : S) (vol : TetgenOutput S) :
    Bool × VolumeImportState S :=
  if vol.numberofpoints = 0 ∨ vol.numberoftetrahedra = 0 then
    (false, clear S ⟨vol.numberofpoints, vol.numberoftetrahedra, [], []⟩)
  else
    (true,
      tetraLoop S vol
        (vertexLoop S dS vol.pointlist 0 vol.numberofpoints
          ⟨vol.numberofpoints, vol.numberoftetrahedra, [], []⟩ []).2
        0 vol.numberoftetrahedra
        (vertexLoop S dS vol.pointlist 0 vol.numberofpoints
          ⟨vol.numberofpoints, vol.numberoftetrahedra, [], []⟩ []).1)

end VolumeImport

/-! ### List helper lemmas -/

theorem getD_set_self {α : Type} (l : List α) (n : Nat) (v d : α)
    (h : n < l.length) : (l.set n v).getD n d = v := by
  rw [List.getD_eq_getElem?_getD, List.getElem?_set_self h]
  rfl

theorem getD_set_ne {α : Type} (l : List α) (m n : Nat) (v d : α)
    (h : m ≠ n) : (l.set m v).getD n d = l.getD n d := by
  rw [List.getD_eq_getElem?_getD, List.getD_eq_getElem?_getD,
    List.getElem?_set_ne h]

theorem getD_replicate_lt {α : Type} (n m : Nat) (v d : α) (h : m < n) :
    (List.replicate n v).getD m d = v := by
  rw [List.getD_eq_getElem?_getD, List.getElem?_replicate_of_lt h]
  rfl

theorem getD_take_lt {α : Type} (l : List α) (m n : Nat) (d : α) (h : n < m) :
    (l.take m).getD n d = l.getD n d := by
  rw [List.getD_eq_getElem?_getD, List.getD_eq_getElem?_getD,
    List.getElem?_take_of_lt h]

theorem getD_map_range {α : Type} (n q : Nat) (f : Nat → α) (d : α)
    (h : q < n) : ((List.range n).map f).getD q d = f q := by
  rw [List.getD_eq_getElem?_getD, List.getElem?_map, List.getElem?_range h]
  rfl

theorem getD_mem {α : Type} (l : List α) (n : Nat) (d : α)
    (h : n < l.length) : l.getD n d ∈ l := by
  rw [List.getD_eq_getElem?_getD, List.getElem?_eq_getElem h]
  exact List.getElem_mem h

theorem flatten_length_uniform {α : Type} (C : Nat) :
    ∀ L : List (List α), (∀ ch ∈ L, ch.length = C) →
      L.flatten.length = L.length * C
  | [], _ => by simp
  | ch :: L, h => by
    have hch : ch.length = C := h ch (List.mem_cons_self ch L)
    have hL : ∀ c ∈ L, c.length = C := fun c hc => h c (List.mem_cons_of_mem _ hc)
    simp only [List.flatten_cons, List.length_append, List.length_cons,
      flatten_length_uniform C L hL, hch, Nat.succ_mul]
    omega

theorem flatten_getElem_uniform {α : Type} (C : Nat) (hC : 0 < C) :
    ∀ L : List (List α), (∀ ch ∈ L, ch.length = C) →
      ∀ m : Nat, m < L.length * C →
        L.flatten[m]? = (L.getD (m / C) [])[m % C]?
  | [], _, m, hm => by simp at hm
  | ch :: L, h, m, hm => by
    have hch : ch.length = C := h ch (List.mem_cons_self ch L)
    have hL : ∀ c ∈ L, c.length = C := fun c hc => h c (List.mem_cons_of_mem _ hc)
    rw [List.flatten_cons]
    by_cases hmC : m < C
    · rw [List.getElem?_append_left (by rw [hch]; exact hmC),
        Nat.div_eq_of_lt hmC, Nat.mod_eq_of_lt hmC]
      rfl
    · have hCm : C ≤ m := Nat.le_of_not_lt hmC
      rw [List.getElem?_append_right (by rw [hch]; exact hCm), hch]
      have hm2 : m - C < L.length * C := by
        have hs : (L.length + 1) * C = L.length * C + C := Nat.succ_mul L.length C
        simp only [List.length_cons] at hm
        omega
      rw [flatten_getElem_uniform C hC L hL (m - C) hm2]
      have hrw : m = (m - C) + C := (Nat.sub_add_cancel hCm).symm
      have hdiv : m / C = (m - C) / C + 1 := by
        nth_rewrite 1 [hrw]
        rw [Nat.add_div_right _ hC]
      have hmod : m % C = (m - C) % C := by
        nth_rewrite 1 [hrw]
        rw [Nat.add_mod_right]
      rw [hdiv, hmod, List.getD_cons_succ]

/-! ### Bit-level helper lemmas -/

theorem and_two_pow_ne_zero (w y : Nat) :
    (w &&& 1 <<< y != 0) = w.testBit y := by
  rw [Nat.one_shiftLeft]
  rcases h : w.testBit y with _ | _
  · have h0 : w &&& 2 ^ y = 0 := by
      apply Nat.eq_of_testBit_eq
      intro i
      simp only [Nat.testBit_and, Nat.testBit_two_pow, Nat.zero_testBit]
      by_cases hi : y = i
      · subst hi
        simp [h]
      · simp [hi]
    simp [h0]
  · have h1 : w &&& 2 ^ y ≠ 0 := by
      intro h0
      have h2 := congrArg (fun z => Nat.testBit z y) h0
      simp [Nat.testBit_and, Nat.testBit_two_pow, h] at h2
    simp [h1]

theorem testBit_or_mask_self (w y : Nat) :
    (w ||| 1 <<< y).testBit y = true := by
  simp [Nat.one_shiftLeft, Nat.testBit_or, Nat.testBit_two_pow_self]

theorem testBit_or_mask_ne (w y z : Nat) (h : y ≠ z) :
    (w ||| 1 <<< y).testBit z = w.testBit z := by
  simp [Nat.one_shiftLeft, Nat.testBit_or, Nat.testBit_two_pow_of_ne h]

theorem testBit_and_mask32_self (w y : Nat) (hy : y < 32) :
    (w &&& ((2 ^ 32 - 1) ^^^ 1 <<< y)).testBit y = false := by
  rw [Nat.one_shiftLeft, Nat.testBit_and, Nat.testBit_xor,
    Nat.testBit_two_pow_sub_one, Nat.testBit_two_pow_self]
  simp [hy]

theorem testBit_and_mask32_ne (w y z : Nat) (hz : z < 32) (h : y ≠ z) :
    (w &&& ((2 ^ 32 - 1) ^^^ 1 <<< y)).testBit z = w.testBit z := by
  rw [Nat.one_shiftLeft, Nat.testBit_and, Nat.testBit_xor,
    Nat.testBit_two_pow_sub_one, Nat.testBit_two_pow_of_ne h]
  simp [hz]

theorem index_decomp (C i : Nat) :
    (i / C) * C + ((i % C) / 32) * 32 + (i % C) % 32 = i := by
  have h1 : ((i % C) / 32) * 32 + (i % C) % 32 = i % C := by
    rw [Nat.mul_comm]
    exact Nat.div_add_mod (i % C) 32
  have h2 : (i / C) * C + i % C = i := by
    rw [Nat.mul_comm]
    exact Nat.div_add_mod i C
  rw [Nat.add_assoc, h1, h2]

theorem index_eq_of_decomp_eq (C i j : Nat) (h1 : i / C = j / C)
    (h2 : (i % C) / 32 = (j % C) / 32) (h3 : (i % C) % 32 = (j % C) % 32) :
    i = j := by
  have hi := index_decomp C i
  have hj := index_decomp C j
  rw [h1, h2, h3] at hi
  rw [← hi, hj]

/-! ### Structural lemmas about the chunk vectors -/

theorem addChunks_tableData {T : Type} (C : Nat) (d : T) :
    ∀ (n : Nat) (a : ChunkArray T),
      (ChunkArray.addChunks C d n a).tableData
        = a.tableData ++ List.replicate n (List.replicate C d)
  | 0, a => by simp [ChunkArray.addChunks]
  | n + 1, a => by
    simp [ChunkArray.addChunks, addChunks_tableData C d n, ChunkArray.addChunk,
      List.replicate_succ]

theorem bool_addChunks_tableData (C : Nat) :
    ∀ (n : Nat) (a : ChunkArrayBool),
      (ChunkArrayBool.addChunks C n a).tableData
        = a.tableData ++ List.replicate n (List.replicate (C / 32) 0)
  | 0, a => by simp [ChunkArrayBool.addChunks]
  | n + 1, a => by
    simp [ChunkArrayBool.addChunks, bool_addChunks_tableData C n,
      ChunkArrayBool.addChunk, List.replicate_succ]

theorem setNbChunks_empty {T : Type} (C : Nat) (d : T) (n : Nat) :
    (ChunkArray.setNbChunks C d n (ChunkArray.empty T)).tableData
      = List.replicate n (List.replicate C d) := by
  simp [ChunkArray.setNbChunks, ChunkArray.empty, addChunks_tableData]

/-- The boolean `operator[]` is the `testBit` of the addressed word. -/
theorem read_eq_testBit (C : Nat) (a : ChunkArrayBool) (i : Nat) :
    ChunkArrayBool.read C a i
      = ((a.tableData.getD (i / C) []).getD ((i % C) / 32) 0).testBit
          ((i % C) % 32) := by
  unfold ChunkArrayBool.read
  exact and_two_pow_ne_zero _ _

/-- Routing lemma: overwriting the word holding bit `i` with `w'` changes the
addressed word of index `j` exactly when `j` lies in the same chunk and the
same 32-bit word as `i`. -/
theorem getD_after_word_update (C : Nat) (a : ChunkArrayBool) (i j w' : Nat)
    (hC32 : 32 ∣ C) (hC0 : 0 < C) (hwf : ChunkArrayBool.wf C a)
    (hi : i < a.tableData.length * C) :
    (((a.tableData.set (i / C)
        ((a.tableData.getD (i / C) []).set ((i % C) / 32) w')).getD (j / C) []).getD
      ((j % C) / 32) 0)
      = if j / C = i / C ∧ (j % C) / 32 = (i % C) / 32 then w'
        else ((a.tableData.getD (j / C) []).getD ((j % C) / 32) 0) := by
  have hjj : i / C < a.tableData.length := by
    rw [Nat.div_lt_iff_lt_mul hC0]
    exact hi
  have hchunk : (a.tableData.getD (i / C) []).length = C / 32 :=
    hwf _ (getD_mem a.tableData (i / C) [] hjj)
  have hx : (i % C) / 32 < C / 32 := by
    rw [Nat.div_lt_iff_lt_mul (by omega : 0 < 32), Nat.div_mul_cancel hC32]
    exact Nat.mod_lt i hC0
  by_cases hcj : j / C = i / C
  · rw [hcj, getD_set_self _ _ _ _ hjj]
    by_cases hxw : (j % C) / 32 = (i % C) / 32
    · rw [hxw, getD_set_self _ _ _ _ (by rw [hchunk]; exact hx),
        if_pos ⟨rfl, rfl⟩]
    · rw [getD_set_ne _ _ _ _ _ (fun he => hxw he.symm),
        if_neg (fun hc => hxw hc.2)]
  · rw [getD_set_ne _ _ _ _ _ (fun he => hcj he.symm),
      if_neg (fun hc => hcj hc.1)]

/-! ### Persistence lemmas for the generic column -/

/-- Evaluation of `load` on a stream whose chunk byte size matches and whose
chunk count is positive. -/
theorem load_eval {T : Type} (C sizeofT : Nat) (d : T) (b : ChunkArray T)
    (s : SaveData T) (hsb : s.chunkBytes = C * sizeofT) (hk : s.nbChunks ≠ 0) :
    ChunkArray.load C sizeofT d b s =
      (true,
        ⟨(List.range s.nbChunks).map fun q =>
          if q < s.nbChunks - 1 then (s.payload.drop (q * C)).take C
          else (s.payload.drop ((s.nbChunks - 1) * C)).take
              (s.nbLinesField - C * (s.nbChunks - 1)) ++
            ((ChunkArray.setNbChunks C d s.nbChunks b).tableData.getD q []).drop
              (s.nbLinesField - C * (s.nbChunks - 1))⟩) := by
  unfold ChunkArray.load
  rw [if_neg (not_not_intro hsb), if_neg hk]

/-- Element `i` of the payload written by `save` is element `i % C` of chunk
`i / C`, for every saved index `i`. -/
theorem save_payload_getElem {T : Type} (C sizeofT : Nat) (a : ChunkArray T)
    (nbLines : Nat) (hC : 0 < C) (hwf : ChunkArray.wf C a)
    (h2 : nbLines ≤ a.tableData.length * C)
    (hk : a.tableData.length ≠ 0) (i : Nat) (hi : i < nbLines) :
    (ChunkArray.save C sizeofT a nbLines).payload[i]?
      = (a.tableData.getD (i / C) [])[i % C]? := by
  obtain ⟨m, hm⟩ : ∃ m, a.tableData.length = m + 1 :=
    ⟨a.tableData.length - 1, by omega⟩
  have hpay : (ChunkArray.save C sizeofT a nbLines).payload
      = (a.tableData.take m).flatten ++
        (a.tableData.getD m []).take (nbLines - m * C) := by
    simp [ChunkArray.save, hm]
  have htklen : (a.tableData.take m).length = m := by
    rw [List.length_take, hm]
    omega
  have htkuni : ∀ ch ∈ a.tableData.take m, ch.length = C :=
    fun ch hch => hwf ch (List.mem_of_mem_take hch)
  have hFlen : (a.tableData.take m).flatten.length = m * C := by
    rw [flatten_length_uniform C _ htkuni, htklen]
  rw [hpay]
  by_cases hcase : i < m * C
  · rw [List.getElem?_append_left (by rw [hFlen]; exact hcase),
      flatten_getElem_uniform C hC _ htkuni i (by rw [htklen]; exact hcase),
      getD_take_lt _ _ _ _ ((Nat.div_lt_iff_lt_mul hC).mpr hcase)]
  · have hge : m * C ≤ i := Nat.le_of_not_lt hcase
    have h2' : nbLines ≤ m * C + C := by
      rw [hm, Nat.succ_mul] at h2
      exact h2
    have hdiv : i / C = m := by
      have hlow : m ≤ i / C := (Nat.le_div_iff_mul_le hC).mpr hge
      have hup : i / C < m + 1 := by
        rw [Nat.div_lt_iff_lt_mul hC, Nat.succ_mul]
        omega
      omega
    have hmod : i % C = i - m * C := by
      have hd := Nat.div_add_mod i C
      rw [hdiv] at hd
      have hcm : C * m = m * C := Nat.mul_comm C m
      omega
    rw [List.getElem?_append_right (by rw [hFlen]; exact hge), hFlen,
      List.getElem?_take_of_lt (by omega : i - m * C < nbLines - m * C),
      hdiv, hmod]

/-- For a column with `m + 1` chunks holding `nbLines` lines, the payload of
`save` has exactly `nbLines` elements. -/
theorem save_payload_length {T : Type} (C sizeofT : Nat) (a : ChunkArray T)
    (nbLines m : Nat) (hwf : ChunkArray.wf C a) (hm : a.tableData.length = m + 1)
    (h1 : m * C ≤ nbLines) (h2 : nbLines ≤ m * C + C) :
    (ChunkArray.save C sizeofT a nbLines).payload.length = nbLines := by
  have hpay : (ChunkArray.save C sizeofT a nbLines).payload
      = (a.tableData.take m).flatten ++
        (a.tableData.getD m []).take (nbLines - m * C) := by
    simp [ChunkArray.save, hm]
  have htkuni : ∀ ch ∈ a.tableData.take m, ch.length = C :=
    fun ch hch => hwf ch (List.mem_of_mem_take hch)
  have htklen : (a.tableData.take m).length = m := by
    rw [List.length_take, hm]
    omega
  have hlast : (a.tableData.getD m []).length = C :=
    hwf _ (getD_mem _ m [] (by omega))
  rw [hpay, List.length_append, flatten_length_uniform C _ htkuni, htklen,
    List.length_take, hlast]
  omega

/-- Evaluation of `load` on a matching stream with zero chunks. -/
theorem load_eval_zero {T : Type} (C sizeofT : Nat) (d : T) (b : ChunkArray T)
    (s : SaveData T) (hsb : s.chunkBytes = C * sizeofT) (hk : s.nbChunks = 0) :
    ChunkArray.load C sizeofT d b s
      = (true, ChunkArray.setNbChunks C d s.nbChunks b) := by
  unfold ChunkArray.load
  rw [if_neg (not_not_intro hsb), if_pos hk]

/-! ### Claim theorems -/

/-- Claim C3: for every `ChunkArray<T>` with fixed-size `T` (modelled by the
element type `T` together with its byte size `sizeofT` and default value
`d`), saving a column with `nbLines` live lines and loading the resulting
stream into a fresh `ChunkArray` with the same `CHUNKSIZE` and `T` returns
true, reproduces the number of chunks, and reproduces the element value at
every saved index. -/
theorem save_load_roundtrip {T : Type} (C sizeofT : Nat) (d : T)
    (a : ChunkArray T) (nbLines : Nat) (hC : 0 < C) (hwf : ChunkArray.wf C a)
    (h1 : (a.tableData.length - 1) * C ≤ nbLines)
    (h2 : nbLines ≤ a.tableData.length * C) :
    (ChunkArray.load C sizeofT d (ChunkArray.empty T)
        (ChunkArray.save C sizeofT a nbLines)).1 = true ∧
    (ChunkArray.load C sizeofT d (ChunkArray.empty T)
        (ChunkArray.save C sizeofT a nbLines)).2.tableData.length
      = a.tableData.length ∧
    ∀ i, i < nbLines →
      ChunkArray.get C d (ChunkArray.load C sizeofT d (ChunkArray.empty T)
          (ChunkArray.save C sizeofT a nbLines)).2 i
        = ChunkArray.get C d a i := by
  by_cases hk : a.tableData.length = 0
  · have hcb : (ChunkArray.save C sizeofT a nbLines).chunkBytes
        = C * sizeofT := rfl
    have hz : (ChunkArray.save C sizeofT a nbLines).nbChunks = 0 := hk
    have hload := load_eval_zero C sizeofT d (ChunkArray.empty T)
      (ChunkArray.save C sizeofT a nbLines) hcb hz
    rw [hload]
    refine ⟨rfl, ?_, ?_⟩
    · rw [setNbChunks_empty, List.length_replicate]
      rfl
    · intro i hi
      rw [hk] at h2
      simp at h2
      omega
  · obtain ⟨m, hm⟩ : ∃ m, a.tableData.length = m + 1 :=
      ⟨a.tableData.length - 1, by omega⟩
    have h1' : m * C ≤ nbLines := by
      rw [hm] at h1
      simpa using h1
    have h2' : nbLines ≤ m * C + C := by
      rw [hm, Nat.succ_mul] at h2
      exact h2
    have hcb : (ChunkArray.save C sizeofT a nbLines).chunkBytes
        = C * sizeofT := rfl
    have hz : (ChunkArray.save C sizeofT a nbLines).nbChunks ≠ 0 := hk
    have hload := load_eval C sizeofT d (ChunkArray.empty T)
      (ChunkArray.save C sizeofT a nbLines) hcb hz
    rw [hload]
    refine ⟨rfl, by simp [ChunkArray.save], ?_⟩
    intro i hi
    have hK : (ChunkArray.save C sizeofT a nbLines).nbChunks = m + 1 := hm
    have hq : i / C < m + 1 := by
      rw [Nat.div_lt_iff_lt_mul hC, Nat.succ_mul]
      omega
    have hpaylen : (ChunkArray.save C sizeofT a nbLines).payload.length
        = nbLines := save_payload_length C sizeofT a nbLines m hwf hm h1' h2'
    show ChunkArray.get C d
      (⟨(List.range (ChunkArray.save C sizeofT a nbLines).nbChunks).map _⟩ :
        ChunkArray T) i = ChunkArray.get C d a i
    rw [ChunkArray.get]
    have hNL : (ChunkArray.save C sizeofT a nbLines).nbLinesField = nbLines := rfl
    rw [hK, hNL]
    simp only [Nat.add_sub_cancel]
    rw [getD_map_range (m + 1) (i / C) _ [] hq]
    by_cases hqm : i / C < m
    · rw [if_pos hqm]
      have hrC : i % C < C := Nat.mod_lt i hC
      have hidx : (i / C) * C + i % C = i := by
        have hd := Nat.div_add_mod i C
        have hcm : C * (i / C) = (i / C) * C := Nat.mul_comm _ _
        omega
      rw [List.getD_eq_getElem?_getD, List.getElem?_take_of_lt hrC,
        List.getElem?_drop, hidx,
        save_payload_getElem C sizeofT a nbLines hC hwf h2 hk i hi]
      simp [ChunkArray.get, List.getD_eq_getElem?_getD]
    · rw [if_neg hqm]
      have hqe : i / C = m := by omega
      have hd := Nat.div_add_mod i C
      rw [hqe] at hd
      have hmul : C * m = m * C := Nat.mul_comm C m
      have hrnbl : i % C < nbLines - C * m := by omega
      have hlen : i % C <
          (((ChunkArray.save C sizeofT a nbLines).payload.drop (m * C)).take
            (nbLines - C * m)).length := by
        rw [List.length_take, List.length_drop, hpaylen]
        omega
      have hidx2 : m * C + i % C = i := by omega
      rw [List.getD_eq_getElem?_getD, List.getElem?_append_left hlen,
        List.getElem?_take_of_lt hrnbl, List.getElem?_drop, hidx2,
        save_payload_getElem C sizeofT a nbLines hC hwf h2 hk i hi]
      simp [ChunkArray.get, List.getD_eq_getElem?_getD]

/-- Witness for C3 at a concrete input: one chunk of 32 naturals, 5 lines. -/
theorem save_load_roundtrip_witness :
    0 < 32 ∧ ChunkArray.wf 32 (ChunkArray.mk [List.range 32] : ChunkArray Nat) ∧
    ((ChunkArray.mk [List.range 32] : ChunkArray Nat).tableData.length - 1) * 32 ≤ 5 ∧
    5 ≤ (ChunkArray.mk [List.range 32] : ChunkArray Nat).tableData.length * 32 ∧
    ((ChunkArray.load 32 4 0 (ChunkArray.empty Nat)
        (ChunkArray.save 32 4 (ChunkArray.mk [List.range 32]) 5)).1 = true ∧
      (ChunkArray.load 32 4 0 (ChunkArray.empty Nat)
        (ChunkArray.save 32 4 (ChunkArray.mk [List.range 32]) 5)).2.tableData.length
        = (ChunkArray.mk [List.range 32] : ChunkArray Nat).tableData.length ∧
      ∀ i, i < 5 →
        ChunkArray.get 32 0 (ChunkArray.load 32 4 0 (ChunkArray.empty Nat)
            (ChunkArray.save 32 4 (ChunkArray.mk [List.range 32]) 5)).2 i
          = ChunkArray.get 32 0 (ChunkArray.mk [List.range 32]) i) :=
  ⟨by decide, by decide, by decide, by decide,
    save_load_roundtrip 32 4 0 (ChunkArray.mk [List.range 32]) 5
      (by decide) (by decide) (by decide) (by decide)⟩

/-- Claim C4: a `load` whose stored chunk byte size disagrees with the current
`CHUNKSIZE * sizeof(T)` (respectively `CHUNKSIZE / 8` for the boolean
specialization) returns false and leaves the array exactly as it was. -/
theorem load_wrong_chunk_byte_size {T : Type} (C sizeofT : Nat) (d : T)
    (a : ChunkArray T) (s : SaveData T) (b : ChunkArrayBool) (sb : BoolSaveData)
    (hg : s.chunkBytes ≠ C * sizeofT) (hb : sb.chunkBytes ≠ C / 8) :
    ChunkArray.load C sizeofT d a s = (false, a) ∧
    ChunkArrayBool.load C b sb = (false, b) := by
  constructor
  · unfold ChunkArray.load
    rw [if_pos hg]
  · unfold ChunkArrayBool.load
    rw [if_pos hb]

/-- Witness for C4 at a concrete input: stored byte size 7 against
`32 * 4 = 128` bytes (generic) and `32 / 8 = 4` bytes (boolean). -/
theorem load_wrong_chunk_byte_size_witness :
    (SaveData.mk 0 0 7 ([] : List Nat)).chunkBytes ≠ 32 * 4 ∧
    (BoolSaveData.mk 0 0 7 []).chunkBytes ≠ 32 / 8 ∧
    (ChunkArray.load 32 4 0 (ChunkArray.empty Nat) (SaveData.mk 0 0 7 [])
        = (false, ChunkArray.empty Nat) ∧
      ChunkArrayBool.load 32 ChunkArrayBool.empty (BoolSaveData.mk 0 0 7 [])
        = (false, ChunkArrayBool.empty)) :=
  ⟨by decide, by decide,
    load_wrong_chunk_byte_size 32 4 0 (ChunkArray.empty Nat) (SaveData.mk 0 0 7 [])
      ChunkArrayBool.empty (BoolSaveData.mk 0 0 7 []) (by decide) (by decide)⟩

/-- Claim C7: `setNbChunks n` leaves exactly `n` chunks; when growing, every
element below the old capacity keeps its value and the new chunks read the
default; when shrinking, every element below the new capacity keeps its
value. -/
theorem setNbChunks_resize {T : Type} (C : Nat) (d : T) (a : ChunkArray T)
    (n : Nat) (hC : 0 < C) :
    (ChunkArray.setNbChunks C d n a).tableData.length = n ∧
    (a.tableData.length ≤ n →
      (∀ i, i < a.tableData.length * C →
        ChunkArray.get C d (ChunkArray.setNbChunks C d n a) i
          = ChunkArray.get C d a i) ∧
      (∀ i, a.tableData.length * C ≤ i → i < n * C →
        ChunkArray.get C d (ChunkArray.setNbChunks C d n a) i = d)) ∧
    (n < a.tableData.length →
      ∀ i, i < n * C →
        ChunkArray.get C d (ChunkArray.setNbChunks C d n a) i
          = ChunkArray.get C d a i) := by
  by_cases hgrow : a.tableData.length ≤ n
  · have htd : (ChunkArray.setNbChunks C d n a).tableData
        = a.tableData ++ List.replicate (n - a.tableData.length)
            (List.replicate C d) := by
      unfold ChunkArray.setNbChunks
      rw [if_pos hgrow, addChunks_tableData]
    refine ⟨?_, fun _ => ⟨?_, ?_⟩, fun hlt => absurd hlt (Nat.not_lt.mpr hgrow)⟩
    · rw [htd, List.length_append, List.length_replicate]
      omega
    · intro i hi
      have hq : i / C < a.tableData.length := (Nat.div_lt_iff_lt_mul hC).mpr hi
      unfold ChunkArray.get
      rw [htd, List.getD_append _ _ _ _ hq]
    · intro i hlo hhi
      have hq1 : a.tableData.length ≤ i / C := (Nat.le_div_iff_mul_le hC).mpr hlo
      have hq2 : i / C < n := (Nat.div_lt_iff_lt_mul hC).mpr hhi
      unfold ChunkArray.get
      rw [htd, List.getD_append_right _ _ _ _ hq1,
        getD_replicate_lt _ _ _ _ (by omega),
        getD_replicate_lt _ _ _ _ (Nat.mod_lt i hC)]
  · have htd : (ChunkArray.setNbChunks C d n a).tableData = a.tableData.take n := by
      unfold ChunkArray.setNbChunks
      rw [if_neg hgrow]
    refine ⟨?_, fun hle => absurd hle hgrow, fun _ => ?_⟩
    · rw [htd, List.length_take]
      omega
    · intro i hi
      have hq : i / C < n := (Nat.div_lt_iff_lt_mul hC).mpr hi
      unfold ChunkArray.get
      rw [htd, getD_take_lt _ _ _ _ hq]

/-- Witness for C7 at a concrete input: grow one chunk of 32 naturals to two
chunks, then check the resize contract. -/
theorem setNbChunks_resize_witness :
    0 < 32 ∧
    ((ChunkArray.setNbChunks 32 0 2 (ChunkArray.mk [List.range 32])).tableData.length = 2 ∧
      ((ChunkArray.mk [List.range 32] : ChunkArray Nat).tableData.length ≤ 2 →
        (∀ i, i < (ChunkArray.mk [List.range 32] : ChunkArray Nat).tableData.length * 32 →
          ChunkArray.get 32 0 (ChunkArray.setNbChunks 32 0 2 (ChunkArray.mk [List.range 32])) i
            = ChunkArray.get 32 0 (ChunkArray.mk [List.range 32]) i) ∧
        (∀ i, (ChunkArray.mk [List.range 32] : ChunkArray Nat).tableData.length * 32 ≤ i →
          i < 2 * 32 →
          ChunkArray.get 32 0 (ChunkArray.setNbChunks 32 0 2 (ChunkArray.mk [List.range 32])) i
            = 0)) ∧
      (2 < (ChunkArray.mk [List.range 32] : ChunkArray Nat).tableData.length →
        ∀ i, i < 2 * 32 →
          ChunkArray.get 32 0 (ChunkArray.setNbChunks 32 0 2 (ChunkArray.mk [List.range 32])) i
            = ChunkArray.get 32 0 (ChunkArray.mk [List.range 32]) i)) :=
  ⟨by decide, setNbChunks_resize 32 0 (ChunkArray.mk [List.range 32]) 2 (by decide)⟩

/-- Reading after overwriting the 32-bit word that holds bit `i` with `w'`:
inside the same word the result is the corresponding bit of `w'`, everywhere
else the read is unchanged. -/
theorem read_after_word_update (C : Nat) (a : ChunkArrayBool) (i j w' : Nat)
    (hC32 : 32 ∣ C) (hC0 : 0 < C) (hwf : ChunkArrayBool.wf C a)
    (hi : i < a.tableData.length * C) :
    ChunkArrayBool.read C
        (ChunkArrayBool.mk (a.tableData.set (i / C)
          ((a.tableData.getD (i / C) []).set ((i % C) / 32) w'))) j
      = if j / C = i / C ∧ (j % C) / 32 = (i % C) / 32
        then w'.testBit ((j % C) % 32)
        else ChunkArrayBool.read C a j := by
  rw [read_eq_testBit C (ChunkArrayBool.mk (a.tableData.set (i / C)
    ((a.tableData.getD (i / C) []).set ((i % C) / 32) w'))) j]
  have hL : (ChunkArrayBool.mk (a.tableData.set (i / C)
      ((a.tableData.getD (i / C) []).set ((i % C) / 32) w'))).tableData
      = a.tableData.set (i / C)
          ((a.tableData.getD (i / C) []).set ((i % C) / 32) w') := rfl
  rw [hL, getD_after_word_update C a i j w' hC32 hC0 hwf hi,
    read_eq_testBit C a j]
  by_cases hcond : j / C = i / C ∧ (j % C) / 32 = (i % C) / 32
  · rw [if_pos hcond, if_pos hcond]
  · rw [if_neg hcond, if_neg hcond]

/-- Claim C6: for an in-range index `i`, `setFalseDirty i` zeroes the whole
enclosing 32-bit word: every index `j` of the same chunk whose in-chunk
offset selects the same word reads false afterwards, and every in-range bit
outside that word is unchanged. -/
theorem setFalseDirty_word_clear (C : Nat) (a : ChunkArrayBool) (i j : Nat)
    (hC32 : 32 ∣ C) (hC0 : 0 < C) (hwf : ChunkArrayBool.wf C a)
    (hi : i < a.tableData.length * C) (hj : j < a.tableData.length * C) :
    (j / C = i / C ∧ (j % C) / 32 = (i % C) / 32 →
      ChunkArrayBool.read C (ChunkArrayBool.setFalseDirty C a i) j = false) ∧
    (¬(j / C = i / C ∧ (j % C) / 32 = (i % C) / 32) →
      ChunkArrayBool.read C (ChunkArrayBool.setFalseDirty C a i) j
        = ChunkArrayBool.read C a j) := by
  have hsd : ChunkArrayBool.setFalseDirty C a i
      = ChunkArrayBool.mk (a.tableData.set (i / C)
          ((a.tableData.getD (i / C) []).set ((i % C) / 32) 0)) := rfl
  rw [hsd]
  constructor
  · intro hsame
    rw [read_after_word_update C a i j 0 hC32 hC0 hwf hi, if_pos hsame,
      Nat.zero_testBit]
  · intro hdiff
    rw [read_after_word_update C a i j 0 hC32 hC0 hwf hi, if_neg hdiff]

/-- Witness for C6 at a concrete input: one chunk of `C = 64`, word zeroed
around bit 3, checked at the in-word index 5 and the out-of-word index 40. -/
theorem setFalseDirty_word_clear_witness :
    (32 : Nat) ∣ 64 ∧ 0 < 64 ∧
    ChunkArrayBool.wf 64 (ChunkArrayBool.mk [[2 ^ 5, 2 ^ 8]]) ∧
    3 < (ChunkArrayBool.mk [[2 ^ 5, 2 ^ 8]]).tableData.length * 64 ∧
    5 < (ChunkArrayBool.mk [[2 ^ 5, 2 ^ 8]]).tableData.length * 64 ∧
    ((5 / 64 = 3 / 64 ∧ (5 % 64) / 32 = (3 % 64) / 32 →
      ChunkArrayBool.read 64
        (ChunkArrayBool.setFalseDirty 64 (ChunkArrayBool.mk [[2 ^ 5, 2 ^ 8]]) 3) 5
        = false) ∧
    (¬(5 / 64 = 3 / 64 ∧ (5 % 64) / 32 = (3 % 64) / 32) →
      ChunkArrayBool.read 64
        (ChunkArrayBool.setFalseDirty 64 (ChunkArrayBool.mk [[2 ^ 5, 2 ^ 8]]) 3) 5
        = ChunkArrayBool.read 64 (ChunkArrayBool.mk [[2 ^ 5, 2 ^ 8]]) 5)) :=
  ⟨by decide, by decide, by decide, by decide, by decide,
    setFalseDirty_word_clear 64 (ChunkArrayBool.mk [[2 ^ 5, 2 ^ 8]]) 3 5
      (by decide) (by decide) (by decide) (by decide) (by decide)⟩

/-- Claim C10: for an in-range index `i` of a boolean column, `setTrue`,
`setFalse` and `setVal` make index `i` read true, false and `b`
respectively, and change no other in-range index `j`. -/
theorem bool_setters_single_bit (C : Nat) (a : ChunkArrayBool) (i j : Nat)
    (b : Bool) (hC32 : 32 ∣ C) (hC0 : 0 < C) (hwf : ChunkArrayBool.wf C a)
    (hi : i < a.tableData.length * C) (hj : j < a.tableData.length * C)
    (hne : j ≠ i) :
    ChunkArrayBool.read C (ChunkArrayBool.setTrue C a i) i = true ∧
    ChunkArrayBool.read C (ChunkArrayBool.setFalse C a i) i = false ∧
    ChunkArrayBool.read C (ChunkArrayBool.setVal C a i b) i = b ∧
    ChunkArrayBool.read C (ChunkArrayBool.setTrue C a i) j
      = ChunkArrayBool.read C a j ∧
    ChunkArrayBool.read C (ChunkArrayBool.setFalse C a i) j
      = ChunkArrayBool.read C a j ∧
    ChunkArrayBool.read C (ChunkArrayBool.setVal C a i b) j
      = ChunkArrayBool.read C a j := by
  have hyi : (i % C) % 32 < 32 := Nat.mod_lt _ (by omega)
  have hyj : (j % C) % 32 < 32 := Nat.mod_lt _ (by omega)
  have hT : ChunkArrayBool.setTrue C a i
      = ChunkArrayBool.mk (a.tableData.set (i / C)
          ((a.tableData.getD (i / C) []).set ((i % C) / 32)
            (((a.tableData.getD (i / C) []).getD ((i % C) / 32) 0) |||
              1 <<< ((i % C) % 32)))) := rfl
  have hF : ChunkArrayBool.setFalse C a i
      = ChunkArrayBool.mk (a.tableData.set (i / C)
          ((a.tableData.getD (i / C) []).set ((i % C) / 32)
            (((a.tableData.getD (i / C) []).getD ((i % C) / 32) 0) &&&
              ((2 ^ 32 - 1) ^^^ 1 <<< ((i % C) % 32))))) := rfl
  have hVt : ChunkArrayBool.setVal C a i true = ChunkArrayBool.setTrue C a i := rfl
  have hVf : ChunkArrayBool.setVal C a i false = ChunkArrayBool.setFalse C a i := rfl
  have hTi : ChunkArrayBool.read C (ChunkArrayBool.setTrue C a i) i = true := by
    rw [hT, read_after_word_update C a i i _ hC32 hC0 hwf hi, if_pos ⟨rfl, rfl⟩]
    exact testBit_or_mask_self _ _
  have hFi : ChunkArrayBool.read C (ChunkArrayBool.setFalse C a i) i = false := by
    rw [hF, read_after_word_update C a i i _ hC32 hC0 hwf hi, if_pos ⟨rfl, rfl⟩]
    exact testBit_and_mask32_self _ _ hyi
  have hTj : ChunkArrayBool.read C (ChunkArrayBool.setTrue C a i) j
      = ChunkArrayBool.read C a j := by
    rw [hT, read_after_word_update C a i j _ hC32 hC0 hwf hi]
    by_cases hcond : j / C = i / C ∧ (j % C) / 32 = (i % C) / 32
    · rw [if_pos hcond]
      have hyne : (j % C) % 32 ≠ (i % C) % 32 := fun he =>
        hne (index_eq_of_decomp_eq C j i hcond.1 hcond.2 he)
      rw [testBit_or_mask_ne _ _ _ (fun he => hyne he.symm),
        read_eq_testBit C a j, hcond.1, hcond.2]
    · rw [if_neg hcond]
  have hFj : ChunkArrayBool.read C (ChunkArrayBool.setFalse C a i) j
      = ChunkArrayBool.read C a j := by
    rw [hF, read_after_word_update C a i j _ hC32 hC0 hwf hi]
    by_cases hcond : j / C = i / C ∧ (j % C) / 32 = (i % C) / 32
    · rw [if_pos hcond]
      have hyne : (j % C) % 32 ≠ (i % C) % 32 := fun he =>
        hne (index_eq_of_decomp_eq C j i hcond.1 hcond.2 he)
      rw [testBit_and_mask32_ne _ _ _ hyj (fun he => hyne he.symm),
        read_eq_testBit C a j, hcond.1, hcond.2]
    · rw [if_neg hcond]
  refine ⟨hTi, hFi, ?_, hTj, hFj, ?_⟩
  · rcases b with _ | _
    · rw [hVf]
      exact hFi
    · rw [hVt]
      exact hTi
  · rcases b with _ | _
    · rw [hVf]
      exact hFj
    · rw [hVt]
      exact hTj

/-- Witness for C10 at a concrete input: `C = 32`, one one-word chunk holding
bit 7, setting bit 3 and checking frame at index 7 with `b = true`. -/
theorem bool_setters_single_bit_witness :
    (32 : Nat) ∣ 32 ∧ 0 < 32 ∧
    ChunkArrayBool.wf 32 (ChunkArrayBool.mk [[2 ^ 7]]) ∧
    3 < (ChunkArrayBool.mk [[2 ^ 7]]).tableData.length * 32 ∧
    7 < (ChunkArrayBool.mk [[2 ^ 7]]).tableData.length * 32 ∧
    (7 : Nat) ≠ 3 ∧
    (ChunkArrayBool.read 32 (ChunkArrayBool.setTrue 32 (ChunkArrayBool.mk [[2 ^ 7]]) 3) 3
        = true ∧
      ChunkArrayBool.read 32 (ChunkArrayBool.setFalse 32 (ChunkArrayBool.mk [[2 ^ 7]]) 3) 3
        = false ∧
      ChunkArrayBool.read 32 (ChunkArrayBool.setVal 32 (ChunkArrayBool.mk [[2 ^ 7]]) 3 true) 3
        = true ∧
      ChunkArrayBool.read 32 (ChunkArrayBool.setTrue 32 (ChunkArrayBool.mk [[2 ^ 7]]) 3) 7
        = ChunkArrayBool.read 32 (ChunkArrayBool.mk [[2 ^ 7]]) 7 ∧
      ChunkArrayBool.read 32 (ChunkArrayBool.setFalse 32 (ChunkArrayBool.mk [[2 ^ 7]]) 3) 7
        = ChunkArrayBool.read 32 (ChunkArrayBool.mk [[2 ^ 7]]) 7 ∧
      ChunkArrayBool.read 32 (ChunkArrayBool.setVal 32 (ChunkArrayBool.mk [[2 ^ 7]]) 3 true) 7
        = ChunkArrayBool.read 32 (ChunkArrayBool.mk [[2 ^ 7]]) 7) :=
  ⟨by decide, by decide, by decide, by decide, by decide, by decide,
    bool_setters_single_bit 32 (ChunkArrayBool.mk [[2 ^ 7]]) 3 7 true
      (by decide) (by decide) (by decide) (by decide) (by decide) (by decide)⟩

/-- Claim C1 is violated by the code: with `CHUNKSIZE = 32` and one chunk,
the generic `capacity` returns `1 * 32 = 32` logical lines, but the boolean
specialization returns `1 * 32 / 32 = 1` (the number of backing words), not
the `nb_chunks * CHUNKSIZE = 32` logical bits that the claim states. -/
theorem bool_capacity_returns_words :
    ChunkArray.capacity 32 (ChunkArray.addChunk 32 (0 : Nat) (ChunkArray.empty Nat)) = 32 ∧
    ChunkArrayBool.getNbChunks (ChunkArrayBool.addChunk 32 ChunkArrayBool.empty) = 1 ∧
    ChunkArrayBool.capacity 32 (ChunkArrayBool.addChunk 32 ChunkArrayBool.empty) = 1 ∧
    ChunkArrayBool.capacity 32 (ChunkArrayBool.addChunk 32 ChunkArrayBool.empty)
      ≠ ChunkArrayBool.getNbChunks (ChunkArrayBool.addChunk 32 ChunkArrayBool.empty) * 32 := by
  refine ⟨rfl, rfl, rfl, ?_⟩
  decide

/-- Claim C2 is violated by the code: with `CHUNKSIZE = 64`, `k = 2` chunks
and `nbLines = 96` (already a multiple of 32), the boolean `save` writes a
header `{2, 96, 8}` and then `8 + (96 - 1*64/8)/8 = 8 + 11 = 19` payload
bytes, whereas the claim's format is `8` bytes of full chunk plus a tail of
`(96 - 64)/8 = 4` bytes, i.e. `12` payload bytes; the 11-byte tail even
exceeds the 8 bytes backing the last chunk. -/
theorem bool_save_tail_bytes_eval :
    (ChunkArrayBool.save 64 (ChunkArrayBool.setNbChunks 64 2 ChunkArrayBool.empty) 96).nbChunks = 2 ∧
    (ChunkArrayBool.save 64 (ChunkArrayBool.setNbChunks 64 2 ChunkArrayBool.empty) 96).nbLinesField = 96 ∧
    (ChunkArrayBool.save 64 (ChunkArrayBool.setNbChunks 64 2 ChunkArrayBool.empty) 96).chunkBytes = 8 ∧
    (ChunkArrayBool.save 64 (ChunkArrayBool.setNbChunks 64 2 ChunkArrayBool.empty) 96).payload.length = 19 ∧
    (ChunkArrayBool.save 64 (ChunkArrayBool.setNbChunks 64 2 ChunkArrayBool.empty) 96).payload.length
      ≠ (2 - 1) * (64 / 8) + (96 - (2 - 1) * 64) / 8 := by
  refine ⟨rfl, ?_, rfl, ?_, ?_⟩ <;> decide

/-- Claim C5: a boolean column of 70 lines in one chunk of `CHUNKSIZE = 128`
with exactly the bits `{0, 31, 32, 33, 69}` set, saved with `nbLines = 70`
and loaded into a fresh boolean column of the same `CHUNKSIZE`, loads
successfully and reads back true exactly at those positions and false at
every other position below 70. -/
theorem bool_save_load_seventy_bits :
    (ChunkArrayBool.load 128 ChunkArrayBool.empty
        (ChunkArrayBool.save 128
          (ChunkArrayBool.setTrue 128 (ChunkArrayBool.setTrue 128
            (ChunkArrayBool.setTrue 128 (ChunkArrayBool.setTrue 128
              (ChunkArrayBool.setTrue 128
                (ChunkArrayBool.addChunk 128 ChunkArrayBool.empty) 0) 31) 32) 33) 69)
          70)).1 = true ∧
    ∀ i, i < 70 →
      ChunkArrayBool.read 128
        (ChunkArrayBool.load 128 ChunkArrayBool.empty
          (ChunkArrayBool.save 128
            (ChunkArrayBool.setTrue 128 (ChunkArrayBool.setTrue 128
              (ChunkArrayBool.setTrue 128 (ChunkArrayBool.setTrue 128
                (ChunkArrayBool.setTrue 128
                  (ChunkArrayBool.addChunk 128 ChunkArrayBool.empty) 0) 31) 32) 33) 69)
            70)).2 i
        = decide (i = 0 ∨ i = 31 ∨ i = 32 ∨ i = 33 ∨ i = 69) := by
  constructor
  · rfl
  · decide

/-- Witness for C5 at the concrete index 31 (one of the saved set bits). -/
theorem bool_save_load_seventy_bits_witness :
    31 < 70 ∧
    ChunkArrayBool.read 128
        (ChunkArrayBool.load 128 ChunkArrayBool.empty
          (ChunkArrayBool.save 128
            (ChunkArrayBool.setTrue 128 (ChunkArrayBool.setTrue 128
              (ChunkArrayBool.setTrue 128 (ChunkArrayBool.setTrue 128
                (ChunkArrayBool.setTrue 128
                  (ChunkArrayBool.addChunk 128 ChunkArrayBool.empty) 0) 31) 32) 33) 69)
            70)).2 31
      = decide ((31 : Nat) = 0 ∨ (31 : Nat) = 31 ∨ (31 : Nat) = 32 ∨
          (31 : Nat) = 33 ∨ (31 : Nat) = 69) :=
  ⟨by decide, bool_save_load_seventy_bits.2 31 (by decide)⟩

/-- Claim C8: the binary OFF exporter writes the vertex count into both the
first and the second field of the three-word count record, and zero into the
third, regardless of the map's face count. -/
theorem export_off_bin_counts_vertex_twice (swapEndian : Nat → Nat)
    (m : MapCellCounts) :
    (exportOffBinCounts swapEndian m).getD 0 0 = swapEndian m.nbVertexCells ∧
    (exportOffBinCounts swapEndian m).getD 1 0 = swapEndian m.nbVertexCells ∧
    (exportOffBinCounts swapEndian m).getD 1 0
      = (exportOffBinCounts swapEndian m).getD 0 0 ∧
    (exportOffBinCounts swapEndian m).getD 2 0 = 0 :=
  ⟨rfl, rfl, rfl, rfl⟩

/-- The vertex loop inserts exactly one attribute line per iteration. -/
theorem vertexLoop_positions_length (S : Type) (dS : S) (pl : List S) :
    ∀ (n i : Nat) (st : VolumeImportState S) (ids : List Nat),
      (VolumeImport.vertexLoop S dS pl i n st ids).1.positions.length
        = st.positions.length + n
  | 0, _, _, _ => rfl
  | n + 1, i, st, ids => by
    simp only [VolumeImport.vertexLoop]
    rw [vertexLoop_positions_length S dS pl n (i + 1)]
    simp only [List.length_append, List.length_cons, List.length_nil]
    omega

/-- The vertex loop does not touch the recorded tetrahedra. -/
theorem vertexLoop_tetras (S : Type) (dS : S) (pl : List S) :
    ∀ (n i : Nat) (st : VolumeImportState S) (ids : List Nat),
      (VolumeImport.vertexLoop S dS pl i n st ids).1.tetras = st.tetras
  | 0, _, _, _ => rfl
  | n + 1, i, st, ids => by
    simp only [VolumeImport.vertexLoop]
    rw [vertexLoop_tetras S dS pl n (i + 1)]

/-- The tetrahedron loop records exactly one tetrahedron per iteration. -/
theorem tetraLoop_tetras_length (S : Type) (vol : TetgenOutput S)
    (ids : List Nat) :
    ∀ (n i : Nat) (st : VolumeImportState S),
      (VolumeImport.tetraLoop S vol ids i n st).tetras.length
        = st.tetras.length + n
  | 0, _, _ => rfl
  | n + 1, i, st => by
    simp only [VolumeImport.tetraLoop]
    rw [tetraLoop_tetras_length S vol ids n (i + 1)]
    simp only [VolumeImport.addTetra, List.length_append, List.length_cons,
      List.length_nil]
    omega

/-- The tetrahedron loop does not touch the vertex attribute lines. -/
theorem tetraLoop_positions (S : Type) (vol : TetgenOutput S)
    (ids : List Nat) :
    ∀ (n i : Nat) (st : VolumeImportState S),
      (VolumeImport.tetraLoop S vol ids i n st).positions = st.positions
  | 0, _, _ => rfl
  | n + 1, i, st => by
    simp only [VolumeImport.tetraLoop]
    rw [tetraLoop_positions S vol ids n (i + 1)]
    rfl

/-- Claim C9: with zero points or zero tetrahedra, `import_file_impl` clears
the importer and returns false; otherwise it inserts exactly
`numberofpoints` vertex lines, adds exactly `numberoftetrahedra` tetrahedra
and returns true. -/
theorem import_file_impl_counts (S : Type) (dS : S) (vol : TetgenOutput S) :
    (vol.numberofpoints = 0 ∨ vol.numberoftetrahedra = 0 →
      VolumeImport.importFileImpl S dS vol
        = (false, VolumeImportState.mk 0 0 [] [])) ∧
    (vol.numberofpoints ≠ 0 → vol.numberoftetrahedra ≠ 0 →
      (VolumeImport.importFileImpl S dS vol).1 = true ∧
      (VolumeImport.importFileImpl S dS vol).2.positions.length
        = vol.numberofpoints ∧
      (VolumeImport.importFileImpl S dS vol).2.tetras.length
        = vol.numberoftetrahedra) := by
  constructor
  · intro h
    unfold VolumeImport.importFileImpl
    rw [if_pos h]
    rfl
  · intro h1 h2
    have hcond : ¬(vol.numberofpoints = 0 ∨ vol.numberoftetrahedra = 0) := by
      tauto
    unfold VolumeImport.importFileImpl
    rw [if_neg hcond]
    refine ⟨rfl, ?_, ?_⟩
    · rw [tetraLoop_positions, vertexLoop_positions_length]
      simp
    · rw [tetraLoop_tetras_length, vertexLoop_tetras]
      simp

/-- Witness for C9 at concrete inputs: an output with one point and one
tetrahedron imports successfully with one vertex line and one tetrahedron,
and an output with zero tetrahedra fails and clears the importer. -/
theorem import_file_impl_counts_witness :
    ((1 : Nat) ≠ 0 ∧ (1 : Nat) ≠ 0 ∧
      ((VolumeImport.importFileImpl Nat 0
          (TetgenOutput.mk 1 1 0 [5, 6, 7] [0, 0, 0, 0])).1 = true ∧
        (VolumeImport.importFileImpl Nat 0
          (TetgenOutput.mk 1 1 0 [5, 6, 7] [0, 0, 0, 0])).2.positions.length = 1 ∧
        (VolumeImport.importFileImpl Nat 0
          (TetgenOutput.mk 1 1 0 [5, 6, 7] [0, 0, 0, 0])).2.tetras.length = 1)) ∧
    (((2 : Nat) = 0 ∨ (0 : Nat) = 0) ∧
      VolumeImport.importFileImpl Nat 0 (TetgenOutput.mk 2 0 0 [] [])
        = (false, VolumeImportState.mk 0 0 [] [])) :=
  ⟨⟨by decide, by decide,
      (import_file_impl_counts Nat 0
        (TetgenOutput.mk 1 1 0 [5, 6, 7] [0, 0, 0, 0])).2 (by decide) (by decide)⟩,
    ⟨by decide,
      (import_file_impl_counts Nat 0 (TetgenOutput.mk 2 0 0 [] [])).1
        (by decide)⟩⟩

end CGoGN
